/-
Verification of the diff-hunk parser, line classifier, batching scheduler and
placement resolver of the chatgpt-code-reviewer action.

The definitions below are shallow embeddings of the TypeScript source:
  * `parseHunkHeader`, `isFilePathLine`, `scanLines`, `getValidCommentLines`
    embed `CommentOnPullRequestService.getValidCommentLines`
    (src/services/commentOnPullRequestService.ts).  The source walks the
    split lines with an outer index `i` and an inner index `j`, and re-enters
    the outer loop at `i = j - 1` whenever the inner loop meets another hunk
    header or a bare file-path line; `scanLines` is the equivalent linear
    scan, carrying `Option Nat` as the "current new-file line" state
    (`none` = not inside a hunk).  Branch order matches the source: hunk
    header, other line starting with the hunk marker, file-header lines,
    bare file path, added marker, removed marker (with one-line lookahead
    into the raw line list), context marker, blank line.
  * `parsePatchForChanges` embeds src/services/utils/patchParser.ts
    (which stops after the first hunk and treats a line that is exactly
    empty as a context position, with no file-path check).
  * `tryLines`, `attemptLineComment`, `createGeneralPRComment`,
    `tryCreateLineComment` embed the tiered placement strategies of
    `tryCreateLineComment` / `attemptLineComment`; the external posting
    call is a parameter `post : Attempt → Except String Unit` whose
    `Except.error` models a thrown exception, caught by the embedded
    try/catch blocks.
  * `createReviewComments` embeds the per-file loop of
    `createReviewComments` (current variant).
  * `legacyFileAnalysis` / `structuredFileAnalysis` embed the per-file
    filtering loops of `addCommentToPr` / `addStructuredCommentToPr`.
  * `buildStructuredReview` embeds the JSON-parse fallback and the
    shape validation of `getStructuredOpenAiReview`
    (src/services/utils/getStructuredOpenAiReview.ts);
    the external `JSON.parse` is a parameter, `none` meaning it threw.
  * `divideFilesByTokenRange` is modelled from the spec (see its comment),
    because its implementation file is not part of the provided sources.

JavaScript strings are modelled as `String`, `split('\n')` as `splitLines`,
`startsWith` as `jsStartsWith`, `trim() === ''` as `isBlankLine` (ASCII
whitespace), and machine numbers as `Nat` (all quantities involved are
non-negative counters).
-/
import Mathlib

/-! ## String helpers -/

/-- JavaScript `patch.split('\n')`: split at every newline, keeping empty
segments; the empty string yields `[""]`. -/
def splitLinesAux : List Char → List Char → List String
  | [], acc => [String.mk acc.reverse]
  | c :: cs, acc =>
    if c = '\n' then String.mk acc.reverse :: splitLinesAux cs []
    else splitLinesAux cs (c :: acc)

/-- `patch.split('\n')` on a Lean `String`. -/
def splitLines (s : String) : List String := splitLinesAux s.data []

/-- Character-list prefix test. -/
def charsPre : List Char → List Char → Bool
  | [], _ => true
  | _ :: _, [] => false
  | p :: ps, c :: cs => if p = c then charsPre ps cs else false

/-- JavaScript `s.startsWith(p)`. -/
def jsStartsWith (s p : String) : Bool := charsPre p.data s.data

/-- JavaScript `s.trim() === ''` (restricted to ASCII whitespace). -/
def isBlankLine (s : String) : Bool := s.data.all Char.isWhitespace

/-! ## The hunk-header pattern

The source tests each line against `/^@@ -\d+,\d+ \+(\d+),(\d+) @@/` and
reads the first capture group (the new-file start) with `parseInt`.
`parseHunkHeader` returns that capture when the line matches. -/

/-- Consume an exact run of expected characters, returning the rest. -/
def expectChars : List Char → List Char → Option (List Char)
  | [], cs => some cs
  | _ :: _, [] => none
  | p :: ps, c :: cs => if c = p then expectChars ps cs else none

/-- Split off the maximal leading run of decimal digits. -/
def takeDigits : List Char → List Char × List Char
  | [] => ([], [])
  | c :: cs =>
    if c.isDigit then
      let r := takeDigits cs
      (c :: r.1, r.2)
    else ([], c :: cs)

/-- Value of a digit run (the `parseInt(..., 10)` of the capture). -/
def digitsToNat (ds : List Char) : Nat :=
  ds.foldl (fun a c => a * 10 + (c.toNat - 48)) 0

/-- Consume `\d+` (at least one digit, maximal munch). -/
def parseDigits (cs : List Char) : Option (Nat × List Char) :=
  let r := takeDigits cs
  if r.1.isEmpty then none else some (digitsToNat r.1, r.2)

/-- Match `^@@ -\d+,\d+ \+(\d+),(\d+) @@` and return the first capture
(the new-file start line).  Anything may follow the final `@@`. -/
def parseHunkHeader (s : String) : Option Nat := do
  let r1 ← expectChars ['@', '@', ' ', '-'] s.data
  let d1 ← parseDigits r1
  let r2 ← expectChars [','] d1.2
  let d2 ← parseDigits r2
  let r3 ← expectChars [' ', '+'] d2.2
  let d3 ← parseDigits r3
  let r4 ← expectChars [','] d3.2
  let d4 ← parseDigits r4
  let _ ← expectChars [' ', '@', '@'] d4.2
  pure d3.1

/-! ## The bare file-path pattern

`/^[a-zA-Z0-9\/\-_.]+\.(php|js|ts|jsx|tsx|py|java|cpp|c|css|html|vue|rb|go|rs)$/`
used to detect a new file's start inside a concatenated patch buffer. -/

/-- Membership in the character class `[a-zA-Z0-9\/\-_.]`. -/
def isPathChar (c : Char) : Bool :=
  c.isAlphanum || c = '/' || c = '-' || c = '_' || c = '.'

/-- The extension alternation of the file-path pattern. -/
def pathExts : List String :=
  ["php", "js", "ts", "jsx", "tsx", "py", "java", "cpp", "c", "css",
   "html", "vue", "rb", "go", "rs"]

/-- Whole-line match of the bare file-path pattern: every character is in
the class, the line ends in a dot followed by one of the extensions, and at
least one class character precedes that dot. -/
def isFilePathLine (s : String) : Bool :=
  !s.data.isEmpty && s.data.all isPathChar &&
    pathExts.any (fun e =>
      List.isSuffixOf ('.' :: e.data) s.data && e.data.length + 2 ≤ s.data.length)

/-! ## Line records -/

/-- The classification tags of `getValidCommentLines`. -/
inductive LineType where
  | added
  | modified
  | context
deriving DecidableEq, Repr

/-- One element of the `validLines` array: a 1-based new-file line number
and its kind. -/
structure ValidLine where
  lineNumber : Nat
  type : LineType
deriving DecidableEq, Repr

/-! ## The scanner / line classifier -/

/-- One step of the linear form of the scanning loops of
`getValidCommentLines`.  The state is the current new-file line number,
`none` while no hunk is open (before the first header, or after a stray
hunk-marker or file-path line closed the current hunk).  The removed-marker
branch peeks at the next raw line, as the source peeks at `lines[j + 1]`;
`k` continues the scan on the remaining lines with the next state. -/
def scanStep (st : Option Nat) (l : String) (rest : List String)
    (k : Option Nat → List ValidLine) : List ValidLine :=
  match parseHunkHeader l with
  | some ns => k (some ns)
  | none =>
    match st with
    | none => k none
    | some n =>
      if jsStartsWith l ("@@") then k none
      else if jsStartsWith l ("+++") || jsStartsWith l ("---") then k (some n)
      else if isFilePathLine l then k none
      else if jsStartsWith l ("+") then ⟨n, LineType.added⟩ :: k (some (n + 1))
      else if jsStartsWith l ("-") then
        match rest with
        | r :: _ =>
          if jsStartsWith r ("+") then ⟨n, LineType.modified⟩ :: k (some n)
          else k (some n)
        | [] => k (some n)
      else if jsStartsWith l (" ") then ⟨n, LineType.context⟩ :: k (some (n + 1))
      else if isBlankLine l then k (some (n + 1))
      else k (some n)

/-- The scan itself: fold `scanStep` over the lines, the continuation being
the scan of the remaining lines from the state the step decided. -/
def scanLines : Option Nat → List String → List ValidLine
  | _, [] => []
  | st, l :: rest => scanStep st l rest (fun st' => scanLines st' rest)

/-- `getValidCommentLines(patch)`. -/
def getValidCommentLines (patch : String) : List ValidLine :=
  scanLines none (splitLines patch)

/-! ## patchParser.ts -/

/-- The result record of `parsePatchForChanges`. -/
structure PatchInfo where
  firstChangedLine : Nat
  hasChanges : Bool
  addedLines : List Nat
  modifiedLines : List Nat
deriving DecidableEq, Repr

/-- Body loop of `parsePatchForChanges`: processes lines after the first
hunk header until another line starting with the hunk marker (or the end),
threading `(currentNewLineNumber, firstChangedLine, hasChanges, addedLines,
modifiedLines)`.  Unlike the classifier above, this helper has no file-path
check and treats exactly-empty lines (not merely blank ones) as context
positions, as the source does. -/
def ppBody (n first : Nat) (has : Bool) (added modified : List Nat) :
    List String → Nat × Nat × Bool × List Nat × List Nat
  | [] => (n, first, has, added, modified)
  | l :: rest =>
    if jsStartsWith l ("@@") then (n, first, has, added, modified)
    else if jsStartsWith l ("+++") || jsStartsWith l ("---") then
      ppBody n first has added modified rest
    else if jsStartsWith l ("+") then
      ppBody (n + 1) (if has then first else n) true (added ++ [n]) modified rest
    else if jsStartsWith l ("-") then
      match rest with
      | r :: _ =>
        if jsStartsWith r ("+") then
          ppBody n (if has then first else n) true added (modified ++ [n]) rest
        else ppBody n first has added modified rest
      | [] => ppBody n first has added modified rest
    else if jsStartsWith l (" ") || l = "" then
      ppBody (n + 1) first has added modified rest
    else ppBody n first has added modified rest

/-- Outer loop of `parsePatchForChanges`: skip lines until the first hunk
header, process its body, and stop ("Process only the first patch section
for now").  With no header the initial values survive unchanged. -/
def ppGo : List String → PatchInfo
  | [] => ⟨1, false, [], []⟩
  | l :: rest =>
    match parseHunkHeader l with
    | some ns =>
      let r := ppBody ns 1 false [] [] rest
      ⟨if r.2.2.1 then r.2.1 else r.1, r.2.2.1, r.2.2.2.1, r.2.2.2.2⟩
    | none => ppGo rest

/-- `parsePatchForChanges(patch)` of src/services/utils/patchParser.ts. -/
def parsePatchForChanges (patch : String) : PatchInfo :=
  ppGo (splitLines patch)

/-- `extractFirstChangedLineFromPatch(patch)`. -/
def extractFirstChangedLineFromPatch (patch : String) : Nat :=
  (parsePatchForChanges patch).firstChangedLine

/-! ## Data model shared by the service loops -/

/-- `FilenameWithPatch` of src/services/types.ts. -/
structure FilenameWithPatch where
  filename : String
  patch : String
  tokensUsed : Nat
deriving DecidableEq, Repr

/-- A changed file as delivered by the diff collaborator: the patch text
may be missing (`undefined`) or empty. -/
structure GitFile where
  filename : String
  patch : Option String
deriving DecidableEq, Repr

/-- One parsed AI suggestion, associated to a file by name. -/
structure Suggestion where
  filename : String
  suggestionText : String
deriving DecidableEq, Repr

/-- JavaScript truthiness of `file.patch` (absent and empty are falsy). -/
def patchTruthy : Option String → Bool
  | some p => !(p == "")
  | none => false

/-! ## Placement attempts (tryCreateLineComment / attemptLineComment)

The external posting calls (`pulls.createReviewComment` for a line-anchored
comment, `issues.createComment` for a whole-PR comment) are modelled by a
parameter `post`; `Except.error` is a thrown exception. -/

/-- A placement attempt: a line-anchored comment on a classified line, or
the whole-PR fallback comment. -/
inductive Attempt where
  | line (l : ValidLine)
  | generalPR
deriving DecidableEq, Repr

/-- `attemptLineComment`: try the posting call for one line, catching any
exception and converting it into a non-fatal `false`. -/
def attemptLineComment (post : Attempt → Except String Unit) (l : ValidLine) : Bool :=
  match post (Attempt.line l) with
  | Except.ok _ => true
  | Except.error _ => false

/-- `createGeneralPRComment`: the whole-PR fallback, also catching. -/
def createGeneralPRComment (post : Attempt → Except String Unit) : Bool :=
  match post Attempt.generalPR with
  | Except.ok _ => true
  | Except.error _ => false

/-- One strategy loop of `tryCreateLineComment`: attempt each line of a
tier in order, stopping at the first success.  Returns the attempts that
were made and whether one succeeded. -/
def tryLines (post : Attempt → Except String Unit) :
    List ValidLine → List Attempt × Bool
  | [] => ([], false)
  | l :: ls =>
    if attemptLineComment post l then ([Attempt.line l], true)
    else
      let r := tryLines post ls
      (Attempt.line l :: r.1, r.2)

/-- `tryCreateLineComment`: empty record list falls straight to the
general PR comment; otherwise strategy 1 tries every `added` record,
strategy 2 every `modified` record, strategy 3 every `context` record, and
strategy 4 is the general PR comment.  Returns the attempts made, in
order, and the overall success flag. -/
def tryCreateLineComment (post : Attempt → Except String Unit)
    (validLines : List ValidLine) : List Attempt × Bool :=
  if validLines.isEmpty then ([Attempt.generalPR], createGeneralPRComment post)
  else
    let r1 := tryLines post (validLines.filter (fun l => l.type == LineType.added))
    if r1.2 then (r1.1, true)
    else
      let r2 := tryLines post (validLines.filter (fun l => l.type == LineType.modified))
      if r2.2 then (r1.1 ++ r2.1, true)
      else
        let r3 := tryLines post (validLines.filter (fun l => l.type == LineType.context))
        if r3.2 then (r1.1 ++ r2.1 ++ r3.1, true)
        else (r1.1 ++ r2.1 ++ r3.1 ++ [Attempt.generalPR], createGeneralPRComment post)

/-- Whether the external posting call completes for a candidate. -/
def attemptOk (post : Attempt → Except String Unit) (a : Attempt) : Bool :=
  match post a with
  | Except.ok _ => true
  | Except.error _ => false

/-- The Placement Resolver of spec section 4.4, written from the spec's
words: Tier 1 all `added` records in record order, Tier 2 all `modified`
records, Tier 3 all `context` records, Tier 4 the single whole-PR
sentinel. -/
def resolverCandidates (records : List ValidLine) : List Attempt :=
  (records.filter (fun l => l.type == LineType.added)).map Attempt.line ++
    (records.filter (fun l => l.type == LineType.modified)).map Attempt.line ++
    (records.filter (fun l => l.type == LineType.context)).map Attempt.line ++
    [Attempt.generalPR]

/-- The prefix of a candidate list up to and including the first accepted
candidate (the whole list when none is accepted). -/
def takeThroughFirstSuccess (ok : Attempt → Bool) : List Attempt → List Attempt
  | [] => []
  | a :: rest => if ok a then [a] else a :: takeThroughFirstSuccess ok rest

/-! ## The per-file loop of createReviewComments (current variant) -/

/-- The body of the `for (const file of files)` loop for one file: find the
suggestion by filename; with none the file is only logged.  The classifier
and the tiered strategies run on the file's own patch; all placement
failures were already converted to `false` inside. -/
def processFile (post : Attempt → Except String Unit) (suggs : List Suggestion)
    (file : FilenameWithPatch) : Option (List Attempt × Bool) :=
  match suggs.find? (fun s => s.filename == file.filename) with
  | some _ => some (tryCreateLineComment post (getValidCommentLines file.patch))
  | none => none

/-- `createReviewComments`: the loop over the batch's files.  Each
iteration's try/catch keeps a failure local to its file ("Don't throw
here, continue with other files"), so the loop always reaches every
file. -/
def createReviewComments (post : Attempt → Except String Unit)
    (suggs : List Suggestion) : List FilenameWithPatch → List (Option (List Attempt × Bool))
  | [] => []
  | f :: rest =>
    (match suggs.find? (fun s => s.filename == f.filename) with
     | some _ => some (tryCreateLineComment post (getValidCommentLines f.patch))
     | none => none) :: createReviewComments post suggs rest

/-! ## File analysis loops (Budget Gate) -/

/-- The per-file loop of `addCommentToPr` (legacy path): token count is `0`
without estimating when the patch is falsy; a file is eligible iff its
patch is truthy and within the limit, and otherwise its name (or `unknown
file`) is appended to `filesTooLongToBeChecked`. -/
def legacyFileAnalysis (estimate : String → Nat) (tokenLimit : Nat) :
    List GitFile → List FilenameWithPatch × List String
  | [] => ([], [])
  | f :: rest =>
    let r := legacyFileAnalysis estimate tokenLimit rest
    let fileTokens := if patchTruthy f.patch then estimate (f.patch.getD "") else 0
    if patchTruthy f.patch = true ∧ fileTokens ≤ tokenLimit then
      (⟨f.filename, f.patch.getD "", estimate (f.patch.getD "")⟩ :: r.1, r.2)
    else
      (r.1, (if f.filename = "" then "unknown file" else f.filename) :: r.2)

/-- The per-file loop of `addStructuredCommentToPr`: a falsy patch is
skipped with `continue` (no record anywhere); within the limit the file is
pushed as a `=== name ===` framed patch, otherwise onto the skipped
list. -/
def structuredFileAnalysis (estimate : String → Nat) (tokenLimit : Nat) :
    List GitFile → List String × List String
  | [] => ([], [])
  | f :: rest =>
    let r := structuredFileAnalysis estimate tokenLimit rest
    if patchTruthy f.patch = false then r
    else
      let p := f.patch.getD ""
      if estimate p ≤ tokenLimit then
        (("=== " ++ f.filename ++ " ===\n" ++ p ++ "\n") :: r.1, r.2)
      else
        (r.1, (if f.filename = "" then "unknown file" else f.filename) :: r.2)

/-! ## Batch scheduler -/

/-- Total units of a batch. -/
def batchTokens (b : List FilenameWithPatch) : Nat :=
  (b.map FilenameWithPatch.tokensUsed).sum

/-- Loop of the scheduler: `cur` holds the current batch in reverse input
order. -/
def divideGo (budget : Nat) : List FilenameWithPatch → List FilenameWithPatch →
    List (List FilenameWithPatch)
  | [], cur => if cur.isEmpty then [] else [cur.reverse]
  | f :: rest, cur =>
    if batchTokens cur + f.tokensUsed ≤ budget then
      divideGo budget rest (f :: cur)
    else if cur.isEmpty then divideGo budget rest [f]
    else cur.reverse :: divideGo budget rest [f]

/-- Modelled from the spec: the implementation of `divideFilesByTokenRange`
(src/services/utils/divideFilesByTokenRange.ts) is not among the provided
sources — only its import and call sites are.  Spec section 4.3: "Greedy,
order-preserving bin-packing: iterate files in input order, add a file to
the current batch if `currentBatch.totalUnits + file.unitsUsed ≤ budget`;
otherwise close the current batch and start a new one containing just that
file", with no empty batch ever emitted. -/
def divideFilesByTokenRange (budget : Nat) (files : List FilenameWithPatch) :
    List (List FilenameWithPatch) :=
  divideGo budget files []

/-! ## Structured review fallback (getStructuredOpenAiReview) -/

/-- `OverallReview` of src/services/types.ts (the string unions stay
strings). -/
structure OverallReview where
  summary : String
  recommendation : String
  issues_count : Nat
  quality_score : Nat
deriving DecidableEq, Repr

/-- `LineComment` of src/services/types.ts. -/
structure LineComment where
  line_number : Nat
  comment : String
  severity : String
  category : String
deriving DecidableEq, Repr

/-- `FileReview` of src/services/types.ts. -/
structure FileReview where
  filename : String
  line_comments : List LineComment
  file_summary : String
deriving DecidableEq, Repr

/-- `StructuredReviewResponse` of src/services/types.ts. -/
structure StructuredReviewResponse where
  overall_review : OverallReview
  file_reviews : List FileReview
deriving DecidableEq, Repr

/-- What `JSON.parse` can deliver: either field may be missing or (for
`file_reviews`) not an array, both modelled as `none`. -/
structure ParsedReview where
  overall_review : Option OverallReview
  file_reviews : Option (List FileReview)
deriving DecidableEq, Repr

/-- The parse-and-validate tail of `getStructuredOpenAiReview`: `parsed =
none` models `JSON.parse` throwing on the raw response text `raw`, in which
case the hard-coded fallback review is substituted (with `raw || "No
response received"` as the single comment); afterwards the shape validation
fills a default `overall_review` and replaces a missing or non-array
`file_reviews` by `[]`. -/
def buildStructuredReview (parsed : Option ParsedReview) (raw : String) :
    StructuredReviewResponse :=
  let sr : ParsedReview :=
    match parsed with
    | some p => p
    | none =>
      ⟨some ⟨"Failed to parse structured response, falling back to basic review",
             "COMMENT", 0, 5⟩,
       some [⟨"unknown",
              [⟨1, if raw = "" then "No response received" else raw,
                "suggestion", "maintainability"⟩],
              "Unable to parse structured review"⟩]⟩
  let ov : OverallReview :=
    match sr.overall_review with
    | some o => o
    | none => ⟨"Review completed", "COMMENT",
               (sr.file_reviews.map List.length).getD 0, 7⟩
  ⟨ov, sr.file_reviews.getD []⟩

/-! ## Head-character lemmas -/

theorem startsWith_char_iff (s : String) (c : Char) :
    jsStartsWith s (String.mk [c]) = true ↔ ∃ t, s.data = c :: t := by
  unfold jsStartsWith
  cases h : s.data with
  | nil => simp [charsPre]
  | cons a t =>
    simp only [charsPre]
    constructor
    · intro hh
      split at hh
      · exact ⟨t, by simp_all⟩
      · exact absurd hh (by simp)
    · intro ⟨t', ht'⟩
      have : a = c := (List.cons.injEq _ _ _ _ ▸ ht').1
      simp [this]

theorem parseHunkHeader_none_of_head (s : String) (c : Char) (t : List Char)
    (hd : s.data = c :: t) (hc : c ≠ '@') : parseHunkHeader s = none := by
  unfold parseHunkHeader expectChars
  rw [hd]
  simp [hc]

theorem jsStartsWith_false_of_head (s p : String) (c d : Char) (t u : List Char)
    (hd : s.data = c :: t) (hp : p.data = d :: u) (h : d ≠ c) :
    jsStartsWith s p = false := by
  unfold jsStartsWith
  rw [hd, hp]
  simp [charsPre, h]

theorem isFilePathLine_false_of_head (s : String) (c : Char) (t : List Char)
    (hd : s.data = c :: t) (hc : isPathChar c = false) :
    isFilePathLine s = false := by
  unfold isFilePathLine
  rw [hd]
  simp [List.all_cons, hc]

/-! ## Single-step behaviour of the scanner -/

/-- A hunk-header line re-initializes the current line to its new-file
start, whatever the previous state was. -/
theorem scan_header (st : Option Nat) (ns : Nat) (l : String) (rest : List String)
    (h : parseHunkHeader l = some ns) :
    scanLines st (l :: rest) = scanLines (some ns) rest := by
  rw [scanLines, scanStep.eq_def, h]

/-- Outside a hunk, a non-header line is skipped. -/
theorem scan_skip_none (l : String) (rest : List String)
    (h : parseHunkHeader l = none) :
    scanLines none (l :: rest) = scanLines none rest := by
  rw [scanLines, scanStep.eq_def, h]

/-- A context-marker line emits a `context` record and increments. -/
theorem scan_space (n : Nat) (l : String) (rest : List String)
    (h : jsStartsWith l (" ") = true) :
    scanLines (some n) (l :: rest) =
      ⟨n, LineType.context⟩ :: scanLines (some (n + 1)) rest := by
  obtain ⟨t, ht⟩ := (startsWith_char_iff l ' ').1 h
  rw [scanLines, scanStep.eq_def,
    parseHunkHeader_none_of_head l ' ' t ht (by decide)]
  simp only [jsStartsWith_false_of_head l ("@@") ' ' '@' t ['@'] ht rfl (by decide),
    jsStartsWith_false_of_head l ("+++") ' ' '+' t ['+', '+'] ht rfl (by decide),
    jsStartsWith_false_of_head l ("---") ' ' '-' t ['-', '-'] ht rfl (by decide),
    isFilePathLine_false_of_head l ' ' t ht (by decide),
    jsStartsWith_false_of_head l ("+") ' ' '+' t [] ht rfl (by decide),
    jsStartsWith_false_of_head l ("-") ' ' '-' t [] ht rfl (by decide), h,
    Bool.false_or, if_true, if_false, Bool.false_eq_true]

/-- An exactly-empty line inside a hunk increments the current line and
emits nothing. -/
theorem scan_empty (n : Nat) (rest : List String) :
    scanLines (some n) ("" :: rest) = scanLines (some (n + 1)) rest := rfl

/-- An added-marker line (other than a `+++` file header) emits an `added`
record at the current line and increments. -/
theorem scan_added (n : Nat) (l : String) (rest : List String)
    (h : jsStartsWith l ("+") = true) (h3 : jsStartsWith l ("+++") = false) :
    scanLines (some n) (l :: rest) =
      ⟨n, LineType.added⟩ :: scanLines (some (n + 1)) rest := by
  obtain ⟨t, ht⟩ := (startsWith_char_iff l '+').1 h
  rw [scanLines, scanStep.eq_def,
    parseHunkHeader_none_of_head l '+' t ht (by decide)]
  simp only [jsStartsWith_false_of_head l ("@@") '+' '@' t ['@'] ht rfl (by decide),
    jsStartsWith_false_of_head l ("---") '+' '-' t ['-', '-'] ht rfl (by decide),
    isFilePathLine_false_of_head l '+' t ht (by decide), h, h3,
    Bool.false_or, if_true, if_false, Bool.false_eq_true]

/-- A removed-marker line (not a `---` file header, not matching the bare
file-path pattern) whose immediate successor is an added-marker line emits
one `modified` record at the current line without incrementing. -/
theorem scan_removed_pair (n : Nat) (l r : String) (rest : List String)
    (ha : jsStartsWith l ("-") = true) (ha3 : jsStartsWith l ("---") = false)
    (haf : isFilePathLine l = false) (hb : jsStartsWith r ("+") = true) :
    scanLines (some n) (l :: r :: rest) =
      ⟨n, LineType.modified⟩ :: scanLines (some n) (r :: rest) := by
  obtain ⟨t, ht⟩ := (startsWith_char_iff l '-').1 ha
  rw [scanLines, scanStep.eq_def,
    parseHunkHeader_none_of_head l '-' t ht (by decide)]
  simp only [jsStartsWith_false_of_head l ("@@") '-' '@' t ['@'] ht rfl (by decide),
    jsStartsWith_false_of_head l ("+++") '-' '+' t ['+', '+'] ht rfl (by decide),
    jsStartsWith_false_of_head l ("+") '-' '+' t [] ht rfl (by decide),
    ha, ha3, haf, hb,
    Bool.false_or, if_true, if_false, Bool.false_eq_true]

/-- A removed-marker line whose immediate successor is not an added-marker
line emits nothing and keeps the current line. -/
theorem scan_removed_nopair (n : Nat) (l r : String) (rest : List String)
    (ha : jsStartsWith l ("-") = true) (ha3 : jsStartsWith l ("---") = false)
    (haf : isFilePathLine l = false) (hb : jsStartsWith r ("+") = false) :
    scanLines (some n) (l :: r :: rest) = scanLines (some n) (r :: rest) := by
  obtain ⟨t, ht⟩ := (startsWith_char_iff l '-').1 ha
  rw [scanLines, scanStep.eq_def,
    parseHunkHeader_none_of_head l '-' t ht (by decide)]
  simp only [jsStartsWith_false_of_head l ("@@") '-' '@' t ['@'] ht rfl (by decide),
    jsStartsWith_false_of_head l ("+++") '-' '+' t ['+', '+'] ht rfl (by decide),
    jsStartsWith_false_of_head l ("+") '-' '+' t [] ht rfl (by decide),
    ha, ha3, haf, hb,
    Bool.false_or, if_true, if_false, Bool.false_eq_true]

/-- The new-file line numbers of the `context` and `added` records, in scan
order (`modified` records are the paired removals and are excluded). -/
def caNums (rs : List ValidLine) : List Nat :=
  rs.filterMap (fun r =>
    match r.type with
    | LineType.added => some r.lineNumber
    | LineType.context => some r.lineNumber
    | LineType.modified => none)

theorem caNums_nil : caNums [] = [] := rfl

theorem caNums_cons_added (n : Nat) (rs : List ValidLine) :
    caNums (⟨n, LineType.added⟩ :: rs) = n :: caNums rs := rfl

theorem caNums_cons_context (n : Nat) (rs : List ValidLine) :
    caNums (⟨n, LineType.context⟩ :: rs) = n :: caNums rs := rfl

theorem caNums_cons_modified (n : Nat) (rs : List ValidLine) :
    caNums (⟨n, LineType.modified⟩ :: rs) = caNums rs := rfl

/-- With no hunk header among the lines, the scanner emits nothing while
outside a hunk. -/
theorem scan_none_of_noheader (body : List String)
    (h : ∀ l ∈ body, parseHunkHeader l = none) : scanLines none body = [] := by
  induction body with
  | nil => rfl
  | cons l rest ih =>
    rw [scan_skip_none l rest (h l (by simp))]
    exact ih (fun x hx => h x (by simp [hx]))

/-- Inside a hunk whose body contains no further header, every `context`
or `added` record carries a line number at least the current one. -/
theorem caNums_lb (body : List String) :
    ∀ n : Nat, (∀ l ∈ body, parseHunkHeader l = none) →
      ∀ x ∈ caNums (scanLines (some n) body), n ≤ x := by
  induction body with
  | nil => intro n _ x hx; simp [scanLines, caNums_nil] at hx
  | cons l rest ih =>
    intro n h x hx
    have hrest : ∀ l ∈ rest, parseHunkHeader l = none :=
      fun y hy => h y (by simp [hy])
    rw [scanLines, scanStep.eq_def, h l (by simp)] at hx
    simp only [] at hx
    split_ifs at hx with h1 h2 h3 h4 h5 h6 h7
    · rw [scan_none_of_noheader rest hrest] at hx
      simp [caNums_nil] at hx
    · exact ih n hrest x hx
    · rw [scan_none_of_noheader rest hrest] at hx
      simp [caNums_nil] at hx
    · rw [caNums_cons_added] at hx
      rcases List.mem_cons.1 hx with hx | hx
      · omega
      · have := ih (n + 1) hrest x hx
        omega
    · cases rest with
      | nil => simp [scanLines, caNums_nil] at hx
      | cons r rest' =>
        simp only [] at hx
        by_cases hr : jsStartsWith r ("+") = true
        · rw [if_pos hr, caNums_cons_modified] at hx
          exact ih n hrest x hx
        · rw [if_neg hr] at hx
          exact ih n hrest x hx
    · rw [caNums_cons_context] at hx
      rcases List.mem_cons.1 hx with hx | hx
      · omega
      · have := ih (n + 1) hrest x hx
        omega
    · have := ih (n + 1) hrest x hx
      omega
    · exact ih n hrest x hx

/-- Within one hunk (a body with no further header), the line numbers of
the `context` and `added` records are strictly increasing in scan order. -/
theorem caNums_chain (body : List String) :
    ∀ n : Nat, (∀ l ∈ body, parseHunkHeader l = none) →
      List.Chain' (fun a b => a < b) (caNums (scanLines (some n) body)) := by
  induction body with
  | nil => intro n _; simp [scanLines, caNums_nil]
  | cons l rest ih =>
    intro n h
    have hrest : ∀ l ∈ rest, parseHunkHeader l = none :=
      fun y hy => h y (by simp [hy])
    rw [scanLines, scanStep.eq_def, h l (by simp)]
    simp only []
    split_ifs with h1 h2 h3 h4 h5 h6 h7
    · rw [scan_none_of_noheader rest hrest]
      simp [caNums_nil]
    · exact ih n hrest
    · rw [scan_none_of_noheader rest hrest]
      simp [caNums_nil]
    · rw [caNums_cons_added]
      refine List.chain'_cons'.2 ⟨?_, ih (n + 1) hrest⟩
      intro y hy
      have hmem : y ∈ caNums (scanLines (some (n + 1)) rest) :=
        List.mem_of_mem_head? hy
      have := caNums_lb rest (n + 1) hrest y hmem
      omega
    · cases rest with
      | nil => simp [scanLines, caNums_nil]
      | cons r rest' =>
        simp only []
        by_cases hr : jsStartsWith r ("+") = true
        · rw [if_pos hr, caNums_cons_modified]
          exact ih n hrest
        · rw [if_neg hr]
          exact ih n hrest
    · rw [caNums_cons_context]
      refine List.chain'_cons'.2 ⟨?_, ih (n + 1) hrest⟩
      intro y hy
      have hmem : y ∈ caNums (scanLines (some (n + 1)) rest) :=
        List.mem_of_mem_head? hy
      have := caNums_lb rest (n + 1) hrest y hmem
      omega
    · exact ih (n + 1) hrest
    · exact ih n hrest

/-! ## Claims C1, C2, C6, C7: the line classifier -/

/-- C1 counterexample: on the patch `@@ -1,1 +1,1 @@ / -old / +new` the
classifier emits TWO records for position 1 — a `modified` record from the
removal and an `added` record when the scan reaches the paired addition —
refuting "emits exactly one record for that position … and does not also
emit a separate `added` record". -/
theorem c1_counterexample :
    getValidCommentLines ("@@ -1,1 +1,1 @@\n-old\n+new") =
      [⟨1, LineType.modified⟩, ⟨1, LineType.added⟩] ∧
      ((getValidCommentLines ("@@ -1,1 +1,1 @@\n-old\n+new")).filter
          (fun r => r.lineNumber == 1)).length = 2 := by decide

/-- C1 (amended): a removed-marker line (not a `---` file header and not a
bare file-path line) immediately followed by an added-marker line (not a
`+++` file header) yields a `modified` record at the current line without
incrementing, and the paired addition then also yields an `added` record at
that same line number, after which the current line increments once. -/
theorem c1_removed_then_added (n : Nat) (a b : String) (rest : List String)
    (ha : jsStartsWith a ("-") = true) (ha3 : jsStartsWith a ("---") = false)
    (haf : isFilePathLine a = false)
    (hb : jsStartsWith b ("+") = true) (hb3 : jsStartsWith b ("+++") = false) :
    scanLines (some n) (a :: b :: rest) =
      ⟨n, LineType.modified⟩ :: ⟨n, LineType.added⟩ ::
        scanLines (some (n + 1)) rest := by
  rw [scan_removed_pair n a b rest ha ha3 haf hb, scan_added n b rest hb hb3]

/-- C1 witness: the amended statement at `-old` / `+new` from line 1. -/
theorem c1_witness :
    scanLines (some 1) ["-old", "+new"] =
      [⟨1, LineType.modified⟩, ⟨1, LineType.added⟩] := by
  rw [c1_removed_then_added 1 ("-old") ("+new") [] (by decide) (by decide)
    (by decide) (by decide) (by decide)]
  rfl

/-- C2: a hunk-header line always resets the current line to that hunk's
new-file start, independently of the previous state, so the scan continues
into every later hunk; on the two-hunk Scenario B patch the second hunk's
records indeed start at line 11. -/
theorem c2_scan_spans_all_hunks :
    (∀ (st : Option Nat) (ns : Nat) (l : String) (rest : List String),
        parseHunkHeader l = some ns →
          scanLines st (l :: rest) = scanLines (some ns) rest) ∧
      getValidCommentLines
          ("@@ -1,2 +1,2 @@\n-old\n+new\n@@ -10,2 +11,2 @@\n context\n+added") =
        [⟨1, LineType.modified⟩, ⟨1, LineType.added⟩,
         ⟨11, LineType.context⟩, ⟨12, LineType.added⟩] :=
  ⟨scan_header, by decide⟩

/-- C2 witness: the reset at a concrete second-hunk header, from a current
line (99) unrelated to the header's new start (7). -/
theorem c2_witness :
    scanLines (some 99) ["@@ -3,1 +7,1 @@", " x"] = scanLines (some 7) [" x"] :=
  c2_scan_spans_all_hunks.1 (some 99) 7 ("@@ -3,1 +7,1 @@") [" x"] (by decide)

/-- C6 counterexample: in `@@ -1,2 +1,2 @@` followed by an empty body line
and then ` x`, the empty line emits NO record (the only record is the
`context` at line 2), refuting "an empty body line yields a `context`
record just as a leading-space line does". -/
theorem c6_counterexample :
    getValidCommentLines ("@@ -1,2 +1,2 @@\n\n x") = [⟨2, LineType.context⟩] ∧
      ValidLine.mk 1 LineType.context ∉
        getValidCommentLines ("@@ -1,2 +1,2 @@\n\n x") := by decide

/-- C6 (amended): a body line beginning with the context marker emits a
`context` record at the current line and then increments, while an
exactly-empty body line only increments the counter and emits no record. -/
theorem c6_context_marker_vs_empty (n : Nat) (l : String) (rest : List String) :
    (jsStartsWith l (" ") = true →
        scanLines (some n) (l :: rest) =
          ⟨n, LineType.context⟩ :: scanLines (some (n + 1)) rest) ∧
      scanLines (some n) ("" :: rest) = scanLines (some (n + 1)) rest :=
  ⟨fun h => scan_space n l rest h, scan_empty n rest⟩

/-- C6 witness: the amended statement at ` x` and at the empty line. -/
theorem c6_witness :
    scanLines (some 5) [" x"] = [⟨5, LineType.context⟩] ∧
      scanLines (some 5) [""] = [] := by
  constructor
  · rw [(c6_context_marker_vs_empty 5 (" x") []).1 (by decide)]
    rfl
  · exact (c6_context_marker_vs_empty 5 ("x") []).2

/-- C7: within a single hunk — a scan started at the hunk's new-file start
on a body containing no further hunk header — the line numbers of the
`context` and `added` records, taken together in scan order, are strictly
increasing. -/
theorem c7_context_added_increasing (start : Nat) (body : List String)
    (h : ∀ l ∈ body, parseHunkHeader l = none) :
    List.Chain' (fun a b => a < b) (caNums (scanLines (some start) body)) :=
  caNums_chain body start h

/-- C7 witness: a concrete hunk body mixing removal, additions and
context. -/
theorem c7_witness :
    List.Chain' (fun a b => a < b)
      (caNums (scanLines (some 4) ["-x", "+y", " z", "", "+w"])) :=
  c7_context_added_increasing 4 ["-x", "+y", " z", "", "+w"] (by decide)

/-! ## Lemmas for the single-hunk parser (patchParser.ts) -/

/-- With no line matching the hunk-header pattern, `ppGo` returns the
initial values unchanged. -/
theorem ppGo_noheader (ls : List String)
    (h : ∀ l ∈ ls, parseHunkHeader l = none) : ppGo ls = ⟨1, false, [], []⟩ := by
  induction ls with
  | nil => rfl
  | cons l rest ih =>
    rw [ppGo, h l (by simp)]
    exact ih (fun x hx => h x (by simp [hx]))

/-! ## Lemmas for the batch scheduler -/

/-- Flattening the scheduler's batches restores the pending batch (in input
order) followed by the remaining files. -/
theorem divideGo_join (budget : Nat) (xs : List FilenameWithPatch) :
    ∀ cur, (divideGo budget xs cur).flatten = cur.reverse ++ xs := by
  induction xs with
  | nil =>
    intro cur
    rw [divideGo]
    by_cases hc : cur.isEmpty
    · simp [hc, List.isEmpty_iff.1 hc]
    · simp [hc]
  | cons f rest ih =>
    intro cur
    rw [divideGo]
    split_ifs with h1 h2
    · rw [ih (f :: cur)]
      simp
    · rw [ih [f]]
      simp [List.isEmpty_iff.1 h2]
    · simp [ih [f]]

theorem batchTokens_cons (f : FilenameWithPatch) (b : List FilenameWithPatch) :
    batchTokens (f :: b) = f.tokensUsed + batchTokens b := by
  simp [batchTokens]

theorem batchTokens_reverse (b : List FilenameWithPatch) :
    batchTokens b.reverse = batchTokens b := by
  simp [batchTokens, List.sum_reverse]

/-- When every pending file fits the budget alone and the pending batch is
within budget, every produced batch is within budget. -/
theorem divideGo_bound (budget : Nat) (xs : List FilenameWithPatch) :
    ∀ cur, (∀ f ∈ xs, f.tokensUsed ≤ budget) → batchTokens cur ≤ budget →
      ∀ b ∈ divideGo budget xs cur, batchTokens b ≤ budget := by
  induction xs with
  | nil =>
    intro cur _ hcur b hb
    rw [divideGo] at hb
    split_ifs at hb with hc
    · simp at hb
    · simp at hb
      rw [hb, batchTokens_reverse]
      exact hcur
  | cons f rest ih =>
    intro cur hx hcur b hb
    have hf : f.tokensUsed ≤ budget := hx f (by simp)
    have hrest : ∀ g ∈ rest, g.tokensUsed ≤ budget := fun g hg => hx g (by simp [hg])
    rw [divideGo] at hb
    split_ifs at hb with h1 h2
    · exact ih (f :: cur) hrest (by rw [batchTokens_cons]; omega) b hb
    · exact ih [f] hrest (by rw [batchTokens_cons]; simp [batchTokens]; omega) b hb
    · rcases List.mem_cons.1 hb with hb | hb
      · rw [hb, batchTokens_reverse]
        exact hcur
      · exact ih [f] hrest (by rw [batchTokens_cons]; simp [batchTokens]; omega) b hb

/-- The scheduler never emits an empty batch. -/
theorem divideGo_nonempty (budget : Nat) (xs : List FilenameWithPatch) :
    ∀ cur, ∀ b ∈ divideGo budget xs cur, b ≠ [] := by
  induction xs with
  | nil =>
    intro cur b hb
    rw [divideGo] at hb
    split_ifs at hb with hc
    · simp at hb
    · simp at hb
      rw [hb]
      simp
      intro hcc
      exact hc (by simp [hcc])
  | cons f rest ih =>
    intro cur b hb
    rw [divideGo] at hb
    split_ifs at hb with h1 h2
    · exact ih (f :: cur) b hb
    · exact ih [f] b hb
    · rcases List.mem_cons.1 hb with hb | hb
      · rw [hb]
        simp
        intro hcc
        exact h2 (by simp [hcc])
      · exact ih [f] b hb

theorem batchTokens_join (bs : List (List FilenameWithPatch)) :
    (bs.map batchTokens).sum = batchTokens bs.flatten := by
  induction bs with
  | nil => rfl
  | cons b rest ih => simp [batchTokens, ih]

/-! ## Claims C10 and C3 -/

/-- C10: `parsePatchForChanges` is a total structurally-recursive function,
and on any patch none of whose lines matches the hunk-header pattern
(including the empty string) it returns `hasChanges = false`,
`firstChangedLine = 1` and empty added/modified lists; the caller's
default anchor `extractFirstChangedLineFromPatch` is therefore 1. -/
theorem c10_headerless_defaults (patch : String)
    (h : ∀ l ∈ splitLines patch, parseHunkHeader l = none) :
    parsePatchForChanges patch = ⟨1, false, [], []⟩ ∧
      extractFirstChangedLineFromPatch patch = 1 := by
  have h1 : parsePatchForChanges patch = ⟨1, false, [], []⟩ := ppGo_noheader _ h
  exact ⟨h1, by rw [extractFirstChangedLineFromPatch, h1]⟩

/-- C10 witness: the empty patch. -/
theorem c10_witness :
    parsePatchForChanges ("") = ⟨1, false, [], []⟩ ∧
      extractFirstChangedLineFromPatch ("") = 1 :=
  c10_headerless_defaults ("") (by decide)

/-- C3: for eligible files (each within the positive budget), the greedy
scheduler yields an order-preserving partition: flattening the batches
gives back exactly the input list (so each file is in exactly one batch,
in input order), the batch totals sum to the files' total units, every
batch is within budget, and no batch is empty. -/
theorem c3_greedy_schedule (budget : Nat) (files : List FilenameWithPatch)
    (_hpos : 0 < budget) (helig : ∀ f ∈ files, f.tokensUsed ≤ budget) :
    (divideFilesByTokenRange budget files).flatten = files ∧
      ((divideFilesByTokenRange budget files).map batchTokens).sum =
        (files.map FilenameWithPatch.tokensUsed).sum ∧
      (∀ b ∈ divideFilesByTokenRange budget files, batchTokens b ≤ budget) ∧
      (∀ b ∈ divideFilesByTokenRange budget files, b ≠ []) := by
  have hj : (divideFilesByTokenRange budget files).flatten = files := by
    rw [divideFilesByTokenRange, divideGo_join]
    simp
  refine ⟨hj, ?_, ?_, ?_⟩
  · rw [batchTokens_join, hj, batchTokens]
  · exact divideGo_bound budget files [] helig (by simp [batchTokens])
  · exact divideGo_nonempty budget files []

/-- C3 witness: three files of 4 units under budget 10 (packed [2, 1]). -/
theorem c3_witness :
    (divideFilesByTokenRange 10 [⟨"a", "p", 4⟩, ⟨"b", "q", 4⟩, ⟨"c", "r", 4⟩]).flatten =
        [⟨"a", "p", 4⟩, ⟨"b", "q", 4⟩, ⟨"c", "r", 4⟩] ∧
      ((divideFilesByTokenRange 10
            [⟨"a", "p", 4⟩, ⟨"b", "q", 4⟩, ⟨"c", "r", 4⟩]).map batchTokens).sum =
        ([⟨"a", "p", 4⟩, ⟨"b", "q", 4⟩, ⟨"c", "r", 4⟩].map
            FilenameWithPatch.tokensUsed).sum ∧
      (∀ b ∈ divideFilesByTokenRange 10 [⟨"a", "p", 4⟩, ⟨"b", "q", 4⟩, ⟨"c", "r", 4⟩],
        batchTokens b ≤ 10) ∧
      (∀ b ∈ divideFilesByTokenRange 10 [⟨"a", "p", 4⟩, ⟨"b", "q", 4⟩, ⟨"c", "r", 4⟩],
        b ≠ []) :=
  c3_greedy_schedule 10 [⟨"a", "p", 4⟩, ⟨"b", "q", 4⟩, ⟨"c", "r", 4⟩]
    (by decide) (by decide)

/-! ## Lemmas for the tiered placement strategies -/

theorem attemptLineComment_eq (post : Attempt → Except String Unit) (l : ValidLine) :
    attemptLineComment post l = attemptOk post (Attempt.line l) := rfl

/-- A strategy loop is exactly the prefix of its tier's candidates through
the first success, with the success flag. -/
theorem tryLines_eq (post : Attempt → Except String Unit) (ls : List ValidLine) :
    tryLines post ls =
      (takeThroughFirstSuccess (attemptOk post) (ls.map Attempt.line),
       (ls.map Attempt.line).any (attemptOk post)) := by
  induction ls with
  | nil => rfl
  | cons l ls ih =>
    rw [tryLines, ih]
    by_cases h : attemptLineComment post l = true
    · simp [h, List.map_cons, takeThroughFirstSuccess,
        attemptLineComment_eq post l ▸ h]
    · have h' : attemptOk post (Attempt.line l) = false := by
        rw [← attemptLineComment_eq]
        exact Bool.not_eq_true _ ▸ h
      simp [h, List.map_cons, takeThroughFirstSuccess, h']

theorem takeThrough_of_not_any (ok : Attempt → Bool) (l : List Attempt)
    (h : l.any ok = false) : takeThroughFirstSuccess ok l = l := by
  induction l with
  | nil => rfl
  | cons a l ih =>
    simp only [List.any_cons, Bool.or_eq_false_iff] at h
    rw [takeThroughFirstSuccess, if_neg (by simp [h.1]), ih h.2]

theorem takeThrough_append (ok : Attempt → Bool) (l1 l2 : List Attempt) :
    takeThroughFirstSuccess ok (l1 ++ l2) =
      if l1.any ok then takeThroughFirstSuccess ok l1
      else l1 ++ takeThroughFirstSuccess ok l2 := by
  induction l1 with
  | nil => simp
  | cons a l1 ih =>
    by_cases h : ok a = true
    · simp [takeThroughFirstSuccess, h]
    · simp only [List.cons_append, takeThroughFirstSuccess, h, if_false,
        Bool.false_eq_true, List.any_cons, Bool.false_or, List.append_eq]
      split_ifs with hany
      · rw [ih, if_pos hany]
      · rw [ih, if_neg hany]

theorem takeThrough_subset (ok : Attempt → Bool) (l : List Attempt) :
    ∀ a ∈ takeThroughFirstSuccess ok l, a ∈ l := by
  induction l with
  | nil => simp [takeThroughFirstSuccess]
  | cons b l ih =>
    intro a ha
    rw [takeThroughFirstSuccess] at ha
    split_ifs at ha with h
    · simp at ha
      simp [ha]
    · rcases List.mem_cons.1 ha with ha | ha
      · simp [ha]
      · simp [ih a ha]

theorem takeThrough_singleton (ok : Attempt → Bool) (a : Attempt) :
    takeThroughFirstSuccess ok [a] = [a] := by
  rw [takeThroughFirstSuccess]
  split_ifs <;> rfl

/-- Splitting the attempt prefix over the four tiers. -/
theorem takeThrough_three (ok : Attempt → Bool) (A M C : List Attempt) (x : Attempt) :
    takeThroughFirstSuccess ok (A ++ (M ++ (C ++ [x]))) =
      if A.any ok then takeThroughFirstSuccess ok A
      else if M.any ok then A ++ takeThroughFirstSuccess ok M
      else if C.any ok then A ++ (M ++ takeThroughFirstSuccess ok C)
      else A ++ (M ++ (C ++ [x])) := by
  rw [takeThrough_append]
  split_ifs with h1 h2 h3
  · rfl
  · rw [takeThrough_append, if_pos h2]
  · rw [takeThrough_append, if_neg h2, takeThrough_append, if_pos h3]
  · rw [takeThrough_append, if_neg h2, takeThrough_append, if_neg h3,
      takeThrough_singleton]

/-- The attempts made by `tryCreateLineComment` are exactly the prefix of
the resolver's tier-ordered candidate list through the first success. -/
theorem c4_main (records : List ValidLine) (post : Attempt → Except String Unit) :
    (tryCreateLineComment post records).1 =
      takeThroughFirstSuccess (attemptOk post) (resolverCandidates records) := by
  simp only [tryCreateLineComment, tryLines_eq, resolverCandidates]
  by_cases hemp : records.isEmpty
  · rw [List.isEmpty_iff.1 hemp]
    simp [takeThrough_singleton]
  · rw [if_neg (by simp [hemp])]
    set okf := attemptOk post with hokf
    set A := (records.filter (fun l => l.type == LineType.added)).map Attempt.line with hA
    set M := (records.filter (fun l => l.type == LineType.modified)).map Attempt.line with hM
    set C := (records.filter (fun l => l.type == LineType.context)).map Attempt.line with hC
    rw [show A ++ M ++ C ++ [Attempt.generalPR] = A ++ (M ++ (C ++ [Attempt.generalPR])) by
      simp [List.append_assoc]]
    rw [takeThrough_three]
    split_ifs with h1 h2 h3
    · rfl
    · rw [takeThrough_of_not_any okf A (by simpa using h1)]
    · rw [takeThrough_of_not_any okf A (by simpa using h1),
        takeThrough_of_not_any okf M (by simpa using h2)]
      simp [List.append_assoc]
    · rw [takeThrough_of_not_any okf A (by simpa using h1),
        takeThrough_of_not_any okf M (by simpa using h2),
        takeThrough_of_not_any okf C (by simpa using h3)]
      simp [List.append_assoc]

/-- For records that are all `context`, the resolver's candidates are just
those records (in order) followed by the whole-PR sentinel. -/
theorem resolver_context_only (records : List ValidLine)
    (h : ∀ r ∈ records, r.type = LineType.context) :
    resolverCandidates records = records.map Attempt.line ++ [Attempt.generalPR] := by
  rw [resolverCandidates]
  have hA : records.filter (fun l => l.type == LineType.added) = [] := by
    rw [List.filter_eq_nil_iff]
    intro a ha
    simp [h a ha]
  have hM : records.filter (fun l => l.type == LineType.modified) = [] := by
    rw [List.filter_eq_nil_iff]
    intro a ha
    simp [h a ha]
  have hC : records.filter (fun l => l.type == LineType.context) = records :=
    List.filter_eq_self.2 (fun a ha => by simp [h a ha])
  rw [hA, hM, hC]
  simp

/-! ## Claim C4 -/

/-- C4: placement attempts are strictly grouped by tier — the attempts made
are exactly the prefix, through the first success, of the candidate list
that enumerates all `added` records, then all `modified`, then all
`context`, then the single whole-PR sentinel; in particular for records
containing only `context` entries no Tier-1/Tier-2 attempt ever occurs,
and when the whole-PR fallback is attempted it comes after every
`context` record has been attempted. -/
theorem c4_tiered_placement (records : List ValidLine)
    (post : Attempt → Except String Unit) :
    (tryCreateLineComment post records).1 =
      takeThroughFirstSuccess (attemptOk post) (resolverCandidates records) ∧
      ((∀ r ∈ records, r.type = LineType.context) → records ≠ [] →
        (∀ l : ValidLine, Attempt.line l ∈ (tryCreateLineComment post records).1 →
          l.type = LineType.context) ∧
        (Attempt.generalPR ∈ (tryCreateLineComment post records).1 →
          (tryCreateLineComment post records).1 =
            records.map Attempt.line ++ [Attempt.generalPR])) := by
  refine ⟨c4_main records post, fun hctx _hne => ⟨?_, ?_⟩⟩
  · intro l hl
    have hsub := takeThrough_subset (attemptOk post) (resolverCandidates records)
      (Attempt.line l) (c4_main records post ▸ hl)
    rw [resolver_context_only records hctx] at hsub
    rcases List.mem_append.1 hsub with hs | hs
    · obtain ⟨r, hr, hre⟩ := List.mem_map.1 hs
      have hrl : r = l := by simpa using hre
      exact hrl ▸ hctx r hr
    · simp at hs
  · intro hpr
    rw [c4_main records post, resolver_context_only records hctx] at hpr ⊢
    rw [takeThrough_append] at hpr ⊢
    by_cases hany : (records.map Attempt.line).any (attemptOk post) = true
    · rw [if_pos hany] at hpr
      have hmem := takeThrough_subset _ _ _ hpr
      obtain ⟨r, _, habs⟩ := List.mem_map.1 hmem
      exact absurd habs (by simp)
    · rw [if_neg hany, takeThrough_singleton]

/-- C4 witness: a single context record with a posting backend that rejects
everything — the context line is attempted, then the whole-PR fallback. -/
theorem c4_witness :
    (tryCreateLineComment (fun _ => Except.error ("e")) [⟨3, LineType.context⟩]).1 =
        takeThroughFirstSuccess (attemptOk (fun _ => Except.error ("e")))
          (resolverCandidates [⟨3, LineType.context⟩]) ∧
      (tryCreateLineComment (fun _ => Except.error ("e")) [⟨3, LineType.context⟩]).1 =
        [⟨3, LineType.context⟩].map Attempt.line ++ [Attempt.generalPR] := by
  have h := c4_tiered_placement [⟨3, LineType.context⟩] (fun _ => Except.error ("e"))
  exact ⟨h.1, (h.2 (by decide) (by decide)).2 (by decide)⟩

/-! ## Claim C9 -/

/-- C9: the batch loop is per-file isolated — its outcome list is exactly
the independent per-file outcomes, one per file in order (so a failure,
including a posting backend that throws on every call, never removes a
later file from processing), and a thrown posting exception for one
attempt is converted by `attemptLineComment` into a non-fatal `false`. -/
theorem c9_per_file_isolation (post : Attempt → Except String Unit)
    (suggs : List Suggestion) (files : List FilenameWithPatch) :
    createReviewComments post suggs files = files.map (processFile post suggs) ∧
      (∀ (l : ValidLine) (e : String),
        post (Attempt.line l) = Except.error e → attemptLineComment post l = false) ∧
      (createReviewComments post suggs files).length = files.length := by
  have hmap : createReviewComments post suggs files =
      files.map (processFile post suggs) := by
    induction files with
    | nil => rfl
    | cons f rest ih => rw [createReviewComments, ih, List.map_cons]; rfl
  refine ⟨hmap, fun l e he => ?_, by rw [hmap, List.length_map]⟩
  rw [attemptLineComment, he]

/-- C9 witness: an always-throwing backend, two files, one suggestion. -/
theorem c9_witness :
    createReviewComments (fun _ => Except.error ("x")) [⟨"a", "s"⟩]
        [⟨"a", "", 0⟩, ⟨"b", "", 0⟩] =
      [⟨"a", "", 0⟩, ⟨"b", "", 0⟩].map
        (processFile (fun _ => Except.error ("x")) [⟨"a", "s"⟩]) ∧
      attemptLineComment (fun _ => Except.error ("x")) ⟨1, LineType.added⟩ = false := by
  have h := c9_per_file_isolation (fun _ => Except.error ("x")) [⟨"a", "s"⟩]
    [⟨"a", "", 0⟩, ⟨"b", "", 0⟩]
  exact ⟨h.1, h.2.1 ⟨1, LineType.added⟩ ("x") rfl⟩

/-! ## Claim C5 -/

/-- C5 counterexample: in the legacy per-file analysis a file whose patch
text is the empty string IS pushed onto the skipped-files list reported to
the caller ("a.ts" appears in the second component), refuting "it does not
appear in the rejected/skipped-files list". -/
theorem c5_counterexample :
    (legacyFileAnalysis String.length 100 [⟨"a.ts", some ""⟩]).1 = [] ∧
      (legacyFileAnalysis String.length 100 [⟨"a.ts", some ""⟩]).2 = ["a.ts"] := by
  decide

/-- C5 (amended): a file whose patch is absent or empty is excluded from
review before token estimation and yields no line records; the structured
path omits it with no record anywhere, while the legacy path appends its
filename (or `unknown file`) to the skipped-files list. -/
theorem c5_missing_patch (estimate : String → Nat) (tokenLimit : Nat)
    (f : GitFile) (rest : List GitFile) (h : patchTruthy f.patch = false) :
    structuredFileAnalysis estimate tokenLimit (f :: rest) =
        structuredFileAnalysis estimate tokenLimit rest ∧
      (legacyFileAnalysis estimate tokenLimit (f :: rest)).1 =
        (legacyFileAnalysis estimate tokenLimit rest).1 ∧
      (legacyFileAnalysis estimate tokenLimit (f :: rest)).2 =
        (if f.filename = "" then "unknown file" else f.filename) ::
          (legacyFileAnalysis estimate tokenLimit rest).2 ∧
      getValidCommentLines ("") = [] := by
  refine ⟨?_, ?_, ?_, rfl⟩
  · rw [structuredFileAnalysis, if_pos h]
  · rw [legacyFileAnalysis, if_neg (by simp [h])]
  · rw [legacyFileAnalysis, if_neg (by simp [h])]

/-- C5 witness: a file with an absent patch. -/
theorem c5_witness :
    structuredFileAnalysis String.length 10 [⟨"a.ts", none⟩] =
        structuredFileAnalysis String.length 10 [] ∧
      (legacyFileAnalysis String.length 10 [⟨"a.ts", none⟩]).1 =
        (legacyFileAnalysis String.length 10 []).1 ∧
      (legacyFileAnalysis String.length 10 [⟨"a.ts", none⟩]).2 =
        (if ("a.ts" : String) = "" then "unknown file" else "a.ts") ::
          (legacyFileAnalysis String.length 10 []).2 ∧
      getValidCommentLines ("") = [] :=
  c5_missing_patch String.length 10 ⟨"a.ts", none⟩ [] (by decide)

/-! ## Claim C8 -/

/-- C8 counterexample: when the raw response text is empty (and fails to
parse), the substituted line comment holds the placeholder `No response
received`, not the raw response text. -/
theorem c8_counterexample :
    (buildStructuredReview none ("")).file_reviews =
      [⟨"unknown", [⟨1, "No response received", "suggestion", "maintainability"⟩],
        "Unable to parse structured review"⟩] ∧
      ("No response received" : String) ≠ ("") := by
  exact ⟨rfl, by decide⟩

/-- C8 (amended): on a parse failure the caller substitutes the minimal
default structured result instead of aborting — the returned review's
overall recommendation is `COMMENT` and its file reviews are exactly one
entry with one `suggestion`-severity comment holding the raw response
text, or the placeholder `No response received` when that text is
empty. -/
theorem c8_parse_failure_fallback (raw : String) :
    (buildStructuredReview none raw).overall_review.recommendation = "COMMENT" ∧
      (buildStructuredReview none raw).file_reviews =
        [⟨"unknown",
          [⟨1, if raw = "" then "No response received" else raw,
            "suggestion", "maintainability"⟩],
          "Unable to parse structured review"⟩] :=
  ⟨rfl, rfl⟩
